import Mathlib

/-!
Shallow embedding of the ledger subsystem of the `abdulwassay786/ERP` Django
application, together with proofs about it.

Sources embedded (translated definition by definition):
* `apps/ledger/models.py` — the `LedgerEntry` model, its `clean` validation and
  the `unique_reference_entry` constraint;
* `apps/ledger/services.py` — `LedgerService`: `_create_entry`, the public
  creation wrappers, `get_customer_outstanding`, `get_all_outstanding_customers`
  and `recalculate_party_balance`;
* `apps/payments/models.py` — `Payment`, `PaymentAllocation` and
  `PaymentAllocation.clean`;
* `apps/payments/views.py` — `PaymentCreateView.form_valid` (allocation
  precedence, FIFO auto-allocation, the payment ledger entry and the invoice
  status sweep);
* `apps/customers/models.py` / `apps/invoices/models.py` — the `Customer` and
  `Invoice` rows these operations read, with the `CompanyScopedManager`
  soft-delete filter.

Conventions: decimal amounts (two decimal places) are embedded as `Int`
(amounts in hundredths; every operation performed on them by the embedded code
is addition, subtraction, `min`, negation or comparison, all exact). Dates are
`Nat`. `created_at` timestamps are `Nat` and are assigned by the store from a
monotone counter, mirroring `auto_now_add` under a monotone clock; the same
counter provides primary keys. Django `ContentType` rows are embedded as `Nat`
tags. Fallible operations return `Except`; `transaction.atomic` is embedded by
having a failed operation leave the state unchanged.
-/

namespace ERP

/-- `LedgerEntry.PARTY_TYPE_CHOICES`: a ledger party is a customer or a
supplier. -/
inductive PartyType where
  | customer
  | supplier
deriving DecidableEq, Repr

/-- `LedgerEntry.ENTRY_TYPE_CHOICES`. -/
inductive EntryType where
  | invoice
  | payment
  | purchase
  | adjustment
deriving DecidableEq, Repr

/-- A row of the `LedgerEntry` table (`apps/ledger/models.py`).  The generic
foreign key `(reference_type, reference_id)` is embedded as an optional pair of
naturals (content-type tag, primary key); `reference_type` is null exactly when
the pair is `none`. -/
structure LedgerEntry where
  id : Nat
  company : Nat
  party_type : PartyType
  party_id : Nat
  entry_type : EntryType
  debit : Int
  credit : Int
  running_balance : Int
  reference : Option (Nat × Nat)
  description : String
  transaction_date : Nat
  created_at : Nat
deriving DecidableEq, Repr

/-- The ledger table state: the stored rows (in insertion order) and the
counter from which primary keys and `created_at` stamps are assigned. -/
structure LedgerDB where
  entries : List LedgerEntry
  nextId : Nat
deriving DecidableEq, Repr

def LedgerDB.empty : LedgerDB := ⟨[], 0⟩

/-- The filter `company=..., party_type=..., party_id=...` applied by every
per-party queryset in `LedgerService`. -/
def matchesParty (company : Nat) (pt : PartyType) (pid : Nat) (e : LedgerEntry) : Bool :=
  e.company == company && e.party_type == pt && e.party_id == pid

/-- `LedgerEntry.objects.filter(company=..., party_type=..., party_id=...)`. -/
def partyEntries (db : LedgerDB) (company : Nat) (pt : PartyType) (pid : Nat) :
    List LedgerEntry :=
  db.entries.filter (matchesParty company pt pid)

/-- Strict ordering of entries by the `(transaction_date, created_at)` key. -/
def keyLt (a b : LedgerEntry) : Bool :=
  a.transaction_date < b.transaction_date ||
    (a.transaction_date == b.transaction_date && a.created_at < b.created_at)

/-- Reflexive ordering of entries by the `(transaction_date, created_at)` key. -/
def keyLe (a b : LedgerEntry) : Bool :=
  a.transaction_date < b.transaction_date ||
    (a.transaction_date == b.transaction_date && a.created_at ≤ b.created_at)

/-- One step of scanning for the `(transaction_date, created_at)`-maximal
entry. -/
def maxStep (acc : Option LedgerEntry) (e : LedgerEntry) : Option LedgerEntry :=
  match acc with
  | none => some e
  | some m => if keyLt m e then some e else some m

/-- `order_by('-transaction_date', '-created_at').first()`: the entry maximal
in the `(transaction_date, created_at)` order, `none` on an empty queryset.
(When several entries tie on the full key the database order is unspecified;
this embedding keeps the earliest-stored one.  All states reachable through the
service have pairwise distinct `created_at`, so no tie arises.) -/
def lastEntry? (l : List LedgerEntry) : Option LedgerEntry :=
  l.foldl maxStep none

/-- The `previous_balance` read in `LedgerService._create_entry`:
`last_entry.running_balance if last_entry else Decimal('0.00')`. -/
def readPreviousBalance (db : LedgerDB) (company : Nat) (pt : PartyType) (pid : Nat) : Int :=
  match lastEntry? (partyEntries db company pt pid) with
  | some e => e.running_balance
  | none => 0

/-- The `unique_reference_entry` constraint of `LedgerEntry.Meta`: a second row
with the same `(reference_type, reference_id, entry_type)` triple is refused
when `reference_type` is non-null. -/
def hasReferenceConflict (db : LedgerDB) (ref : Option (Nat × Nat)) (et : EntryType) : Bool :=
  match ref with
  | none => false
  | some r => db.entries.any (fun e => e.reference == some r && e.entry_type == et)

/-- Failures of a ledger write: the `IntegrityError` raised by the
`unique_reference_entry` constraint. -/
inductive CreateErr where
  | conflict
deriving DecidableEq, Repr

/-- The row built by `LedgerEntry.objects.create(...)` inside `_create_entry`,
given the running balance computed there.  Primary key and `created_at` come
from the store counter. -/
def mkEntry (db : LedgerDB) (company : Nat) (pt : PartyType) (pid : Nat)
    (et : EntryType) (debit credit : Int) (tdate : Nat) (descr : String)
    (ref : Option (Nat × Nat)) (running_balance : Int) : LedgerEntry :=
  { id := db.nextId
    company := company
    party_type := pt
    party_id := pid
    entry_type := et
    debit := debit
    credit := credit
    running_balance := running_balance
    reference := ref
    description := descr
    transaction_date := tdate
    created_at := db.nextId }

/-- The `INSERT` performed by `LedgerEntry.objects.create(...)`: refused by the
unique constraint on a duplicate reference, otherwise appended. -/
def insertEntry (db : LedgerDB) (e : LedgerEntry) : Except CreateErr LedgerDB :=
  if hasReferenceConflict db e.reference e.entry_type then
    .error .conflict
  else
    .ok ⟨db.entries ++ [e], db.nextId + 1⟩

/-- `LedgerService._create_entry`: read the party tail, compute
`previous_balance + debit - credit`, insert the new row.  The whole method runs
in `transaction.atomic`, so on failure nothing is persisted (the error case
carries no new state). -/
def createEntry (db : LedgerDB) (company : Nat) (pt : PartyType) (pid : Nat)
    (et : EntryType) (debit credit : Int) (tdate : Nat) (descr : String)
    (ref : Option (Nat × Nat)) : Except CreateErr (LedgerEntry × LedgerDB) :=
  let previous_balance := readPreviousBalance db company pt pid
  let running_balance := previous_balance + debit - credit
  let e := mkEntry db company pt pid et debit credit tdate descr ref running_balance
  match insertEntry db e with
  | .ok db1 => .ok (e, db1)
  | .error err => .error err

/-- Characterization of `createEntry`: a reference conflict yields the error,
otherwise the new row is appended with balance
`previous_balance + debit - credit`. -/
theorem createEntry_eq (db : LedgerDB) (company : Nat) (pt : PartyType) (pid : Nat)
    (et : EntryType) (debit credit : Int) (tdate : Nat) (descr : String)
    (ref : Option (Nat × Nat)) :
    createEntry db company pt pid et debit credit tdate descr ref =
      if hasReferenceConflict db ref et then .error .conflict
      else .ok (mkEntry db company pt pid et debit credit tdate descr ref
          (readPreviousBalance db company pt pid + debit - credit),
        ⟨db.entries ++ [mkEntry db company pt pid et debit credit tdate descr ref
          (readPreviousBalance db company pt pid + debit - credit)], db.nextId + 1⟩) := by
  cases h : hasReferenceConflict db ref et with
  | true => simp [createEntry, insertEntry, mkEntry, h]
  | false => simp [createEntry, insertEntry, mkEntry, h]

/-- A `Customer` row (`apps/customers/models.py`), with the `SoftDeleteMixin`
flag. -/
structure Customer where
  id : Nat
  company : Nat
  name : String
  is_deleted : Bool
deriving DecidableEq, Repr

/-- An `Invoice` row (`apps/invoices/models.py`).  `status` is a `CharField`
and is embedded as a string; `STATUS_CHOICES` are
`draft`, `sent`, `paid`, `cancelled`. -/
structure Invoice where
  id : Nat
  company : Nat
  customer : Nat
  invoice_number : String
  date : Nat
  status : String
  total_amount : Int
  is_deleted : Bool
deriving DecidableEq, Repr

/-- Content-type tag of `Invoice` for generic references. -/
def invoiceContentType : Nat := 1

/-- Content-type tag of `Payment` for generic references. -/
def paymentContentType : Nat := 2

/-- `LedgerService.create_customer_invoice_entry`. -/
def create_customer_invoice_entry (db : LedgerDB) (company : Nat) (customer : Customer)
    (invoice : Invoice) : Except CreateErr (LedgerEntry × LedgerDB) :=
  createEntry db company .customer customer.id .invoice invoice.total_amount 0
    invoice.date ("Invoice " ++ invoice.invoice_number)
    (some (invoiceContentType, invoice.id))

/-- `LedgerService.create_customer_payment_entry`. -/
def create_customer_payment_entry (db : LedgerDB) (company : Nat) (customer : Customer)
    (amount : Int) (payment_date : Nat) (description : String)
    (ref : Option (Nat × Nat)) : Except CreateErr (LedgerEntry × LedgerDB) :=
  createEntry db company .customer customer.id .payment 0 amount payment_date
    (if description == "" then "Payment received from " ++ customer.name else description)
    ref

/-- `LedgerService.create_adjustment_entry`. -/
def create_adjustment_entry (db : LedgerDB) (company : Nat) (pt : PartyType) (pid : Nat)
    (amount : Int) (is_debit : Bool) (adjustment_date : Nat) (description : String) :
    Except CreateErr (LedgerEntry × LedgerDB) :=
  let debit := if is_debit then amount else 0
  let credit := if is_debit then (0 : Int) else amount
  createEntry db company pt pid .adjustment debit credit adjustment_date description none

/-- `LedgerEntry.clean` (`apps/ledger/models.py`): rejects a row with both
`debit` and `credit` positive, or both zero.  Note that Django only runs
`clean` through `full_clean`, which `LedgerEntry.objects.create(...)` does not
call; so this check is a separate function, not part of `createEntry`. -/
def ledgerEntryClean (e : LedgerEntry) : Bool :=
  !(e.debit > 0 && e.credit > 0) && !(e.debit == 0 && e.credit == 0)

/-- `LedgerService.get_customer_outstanding`. -/
def get_customer_outstanding (db : LedgerDB) (company : Nat) (customer_id : Nat) : Int :=
  match lastEntry? (partyEntries db company .customer customer_id) with
  | some e => e.running_balance
  | none => 0

/-- Stable insertion into a list ordered by the boolean relation `le`: the new
element goes after every element that compares `le` to it. -/
def insertOrd {α : Type} (le : α → α → Bool) (x : α) : List α → List α
  | [] => [x]
  | a :: rest => if le a x then a :: insertOrd le x rest else x :: a :: rest

/-- Stable insertion sort by the boolean relation `le`; models SQL
`ORDER BY` on the embedded key (Python's `sorted` is likewise stable). -/
def sortOrd {α : Type} (le : α → α → Bool) (l : List α) : List α :=
  l.foldl (fun s x => insertOrd le x s) []

/-- `order_by('transaction_date', 'created_at')` on a queryset. -/
def sortByKey (l : List LedgerEntry) : List LedgerEntry :=
  sortOrd keyLe l

/-- One row of the list returned by
`LedgerService.get_all_outstanding_customers`. -/
structure OutstandingRow where
  customer_id : Nat
  customer_name : String
  balance : Int
deriving DecidableEq, Repr

/-- `Customer.objects.get(id=..., company=...)`, through `CompanyScopedManager`
(which filters out soft-deleted rows); `none` embeds `Customer.DoesNotExist`. -/
def customerGet (customers : List Customer) (company : Nat) (pid : Nat) : Option Customer :=
  customers.find? (fun c => !c.is_deleted && c.id == pid && c.company == company)

/-- The distinct `party_id` values of a list of entries, in first-appearance
order — the groups produced by `.values('party_id')`. -/
def distinctPartyIds (l : List LedgerEntry) : List Nat :=
  l.foldl (fun acc e => if acc.contains e.party_id then acc else acc ++ [e.party_id]) []

/-- `Max('transaction_date')` over a (nonempty) group of entries. -/
def maxDate (l : List LedgerEntry) : Nat :=
  l.foldl (fun a e => max a e.transaction_date) 0

/-- `Max('created_at')` over a (nonempty) group of entries. -/
def maxCreated (l : List LedgerEntry) : Nat :=
  l.foldl (fun a e => max a e.created_at) 0

/-- The group of a customer's entries produced by `.values('party_id')`. -/
def outstandingGroup (custEntries : List LedgerEntry) (pid : Nat) : List LedgerEntry :=
  custEntries.filter (fun e => e.party_id == pid)

/-- The re-fetch inside `get_all_outstanding_customers`: the first entry of
the group carrying both the group's `Max('transaction_date')` and its
`Max('created_at')` — two aggregates computed independently of each other. -/
def outstandingLatest? (custEntries : List LedgerEntry) (pid : Nat) : Option LedgerEntry :=
  ((outstandingGroup custEntries pid).filter
    (fun e => e.transaction_date == maxDate (outstandingGroup custEntries pid) &&
      e.created_at == maxCreated (outstandingGroup custEntries pid))).head?

/-- One iteration of the `get_all_outstanding_customers` loop for one grouped
`party_id`: append a row when the re-fetched entry exists, its running balance
is positive and the customer row exists (`Customer.DoesNotExist` is swallowed
by `pass`). -/
def outstandingStep (custEntries : List LedgerEntry) (customers : List Customer)
    (company : Nat) (acc : List OutstandingRow) (pid : Nat) : List OutstandingRow :=
  match outstandingLatest? custEntries pid with
  | none => acc
  | some last_entry =>
    if last_entry.running_balance > 0 then
      match customerGet customers company pid with
      | some c => acc ++ [⟨c.id, c.name, last_entry.running_balance⟩]
      | none => acc
    else acc

/-- `LedgerService.get_all_outstanding_customers`: group the company's
customer entries by `party_id`, run `outstandingStep` over the groups, and
sort the result by balance descending. -/
def get_all_outstanding_customers (db : LedgerDB) (customers : List Customer)
    (company : Nat) : List OutstandingRow :=
  let custEntries := db.entries.filter
    (fun e => e.company == company && e.party_type == PartyType.customer)
  sortOrd (fun a b => b.balance ≤ a.balance)
    ((distinctPartyIds custEntries).foldl (outstandingStep custEntries customers company) [])

/-- One pass of `LedgerService.recalculate_party_balance` over the party's
entries in `(transaction_date, created_at)` ascending order: returns the
entries with recomputed balances, the final balance, and the number of rows
whose stored balance differed (the `entry.save(...)` calls issued). -/
def recalcSweep : Int → List LedgerEntry → List LedgerEntry × Int × Nat
  | acc, [] => ([], acc, 0)
  | acc, e :: rest =>
    ({ e with running_balance := acc + e.debit - e.credit } ::
        (recalcSweep (acc + e.debit - e.credit) rest).1,
      (recalcSweep (acc + e.debit - e.credit) rest).2.1,
      (if e.running_balance == acc + e.debit - e.credit then 0 else 1) +
        (recalcSweep (acc + e.debit - e.credit) rest).2.2)

/-- `UPDATE` of a row in place: replace a stored row by the recomputed row
carrying the same primary key, if one exists. -/
def replaceById (upd : List LedgerEntry) (e : LedgerEntry) : LedgerEntry :=
  match upd.find? (fun u => u.id == e.id) with
  | some u => u
  | none => e

/-- `LedgerService.recalculate_party_balance`: recompute every running balance
of the party from 0 in `(transaction_date, created_at)` ascending order, write
back the rows whose stored balance differs, and return the final balance.
Result: (new state, final balance, number of rows written). -/
def recalculate_party_balance (db : LedgerDB) (company : Nat) (pt : PartyType)
    (pid : Nat) : LedgerDB × Int × Nat :=
  let sorted := sortByKey (partyEntries db company pt pid)
  let r := recalcSweep 0 sorted
  (⟨db.entries.map (replaceById r.1), db.nextId⟩, r.2.1, r.2.2)

/-- The balance-recurrence check of the spec: starting from `prev`, every
entry's `running_balance` equals the previous balance plus its debit minus its
credit. -/
def chainOk : Int → List LedgerEntry → Bool
  | _, [] => true
  | prev, e :: rest =>
    (e.running_balance == prev + e.debit - e.credit) && chainOk e.running_balance rest

/-- The recurrence applied to a party's stored entries, ordered by
`(transaction_date, created_at)` ascending, from balance 0. -/
def partyChainOk (db : LedgerDB) (company : Nat) (pt : PartyType) (pid : Nat) : Bool :=
  chainOk 0 (sortByKey (partyEntries db company pt pid))

/-- `Σ (debit - credit)` over a list of entries. -/
def sumDC (l : List LedgerEntry) : Int :=
  (l.map (fun e => e.debit - e.credit)).sum

/-- The arguments of one `LedgerService._create_entry` call. -/
structure CreateOp where
  company : Nat
  party_type : PartyType
  party_id : Nat
  entry_type : EntryType
  debit : Int
  credit : Int
  transaction_date : Nat
  description : String
  reference : Option (Nat × Nat)
deriving DecidableEq, Repr

/-- Run one creation against the store; on failure `transaction.atomic` leaves
the store unchanged. -/
def applyCreate (db : LedgerDB) (op : CreateOp) : LedgerDB :=
  match createEntry db op.company op.party_type op.party_id op.entry_type
      op.debit op.credit op.transaction_date op.description op.reference with
  | .ok r => r.2
  | .error _ => db

/-- Run a sequence of creations. -/
def applyOps (db : LedgerDB) (ops : List CreateOp) : LedgerDB :=
  ops.foldl applyCreate db

/-- A `Payment` row (`apps/payments/models.py`).  `customer` is the id of the
customer FK. -/
structure Payment where
  id : Nat
  company : Nat
  customer : Nat
  payment_number : String
  payment_date : Nat
  amount : Int
  payment_method : String
deriving DecidableEq, Repr

/-- A `PaymentAllocation` row: `payment` and `invoice` are the ids of the two
FKs. -/
structure PaymentAllocation where
  payment : Nat
  invoice : Nat
  amount : Int
deriving DecidableEq, Repr

/-- `invoice.payment_allocations.aggregate(total=Sum('amount'))` (0 when
empty). -/
def invoiceAllocated (allocs : List PaymentAllocation) (invoiceId : Nat) : Int :=
  ((allocs.filter (fun a => a.invoice == invoiceId)).map PaymentAllocation.amount).sum

/-- `payment.allocations.aggregate(total=Sum('amount'))` (0 when empty). -/
def paymentAllocated (allocs : List PaymentAllocation) (paymentId : Nat) : Int :=
  ((allocs.filter (fun a => a.payment == paymentId)).map PaymentAllocation.amount).sum

/-- `PaymentAllocation.clean` (`apps/payments/models.py`) for a new, unsaved
allocation of `amount` linking `payment` to `inv`: same customer, same
company, the payment's existing allocations plus this amount must not exceed
the payment amount, and the amount must not exceed the invoice outstanding.
Returns `false` where the source raises `ValidationError`.  Django runs this
only through `full_clean`, which `PaymentAllocation.objects.create(...)` never
calls; so this check is a separate function, not part of the write path. -/
def paymentAllocationClean (allocs : List PaymentAllocation) (payment : Payment)
    (inv : Invoice) (amount : Int) : Bool :=
  (payment.customer == inv.customer) &&
  (payment.company == inv.company) &&
  (paymentAllocated allocs payment.id + amount ≤ payment.amount) &&
  (amount ≤ inv.total_amount - invoiceAllocated allocs inv.id)

/-- Failures that abort `PaymentCreateView.form_valid` (its whole body runs in
one `transaction.atomic`): the `unique_payment_invoice_allocation` constraint,
or the `unique_reference_entry` constraint on the ledger entry. -/
inductive PayErr where
  | duplicateAllocation
  | ledgerConflict
deriving DecidableEq, Repr

/-- `PaymentAllocation.objects.create(...)`: refused by the
`unique_payment_invoice_allocation` constraint on a duplicate
`(payment, invoice)` pair, otherwise appended.  No `clean` runs here. -/
def allocCreate (allocs : List PaymentAllocation) (paymentId invoiceId : Nat)
    (amount : Int) : Except PayErr (List PaymentAllocation) :=
  if allocs.any (fun a => a.payment == paymentId && a.invoice == invoiceId) then
    .error .duplicateAllocation
  else
    .ok (allocs ++ [⟨paymentId, invoiceId, amount⟩])

/-- The manual-allocation loop of `form_valid` over the parsed
`allocation_{invoice_id}` POST fields, in POST order.  An entry already
handled by the selected-invoice step is skipped; a non-positive amount or a
missing invoice (`Invoice.objects.get` scoped to the company and customer,
soft-deleted rows excluded) is skipped; otherwise the allocation row is
created with no bound check. -/
def processManual (paymentId company customerId : Nat) (invoices : List Invoice)
    (selected : Option Invoice) :
    List (Nat × Int) → List PaymentAllocation → Bool →
    Except PayErr (List PaymentAllocation × Bool)
  | [], allocs, made => .ok (allocs, made)
  | (invId, amt) :: rest, allocs, made =>
    if (match selected with | some s => s.id == invId | none => false) then
      processManual paymentId company customerId invoices selected rest allocs made
    else if amt > 0 then
      match invoices.find?
          (fun i => !i.is_deleted && i.id == invId && i.company == company &&
            i.customer == customerId) with
      | none => processManual paymentId company customerId invoices selected rest allocs made
      | some _ =>
        match allocCreate allocs paymentId invId amt with
        | .ok allocs1 =>
          processManual paymentId company customerId invoices selected rest allocs1 true
        | .error e => .error e
    else
      processManual paymentId company customerId invoices selected rest allocs made

/-- Ascending `order_by('date')` comparison on invoices. -/
def dateLe (a b : Invoice) : Bool :=
  a.date ≤ b.date

/-- The FIFO auto-allocation loop of `form_valid`: walk the open invoices
oldest first, allocating `min(remaining_payment, outstanding)` to each, until
the payment or the invoices run out. -/
def fifoLoop (paymentId : Nat) :
    Int → List Invoice → List PaymentAllocation → Except PayErr (List PaymentAllocation)
  | _, [], allocs => .ok allocs
  | remaining, inv :: rest, allocs =>
    if remaining ≤ 0 then .ok allocs
    else
      let already_paid := invoiceAllocated allocs inv.id
      let outstanding := inv.total_amount - already_paid
      if outstanding ≤ 0 then fifoLoop paymentId remaining rest allocs
      else
        let to_allocate := min remaining outstanding
        match allocCreate allocs paymentId inv.id to_allocate with
        | .ok allocs1 => fifoLoop paymentId (remaining - to_allocate) rest allocs1
        | .error e => .error e

/-- The invoices the FIFO step iterates:
`Invoice.objects.filter(company=..., customer=..., status__in=['sent',
'partial']).order_by('date')`, through the soft-delete-excluding manager. -/
def fifoQueryset (invoices : List Invoice) (company customerId : Nat) : List Invoice :=
  sortOrd dateLe (invoices.filter
    (fun i => !i.is_deleted && i.company == company && i.customer == customerId &&
      (i.status == "sent" || i.status == "partial")))

/-- The invoice-status sweep at the end of `form_valid`: for every allocation
of this payment (in creation order), re-read the invoice, total its
allocations, and mark it `paid` when fully covered. -/
def statusSweep (allocsAll : List PaymentAllocation) (paymentId : Nat)
    (invoices : List Invoice) : List Invoice :=
  (allocsAll.filter (fun a => a.payment == paymentId)).foldl
    (fun invs a =>
      match invs.find? (fun i => i.id == a.invoice) with
      | none => invs
      | some inv =>
        if invoiceAllocated allocsAll a.invoice ≥ inv.total_amount &&
            !(inv.status == "paid") then
          invs.map (fun i => if i.id == a.invoice then { i with status := "paid" } else i)
        else invs)
    invoices

/-- The mutable state touched by `PaymentCreateView.form_valid`: the ledger,
the allocation table, and the invoice table.  (The `Payment` row itself is
persisted first; it is passed separately and no claim reads the payment
table.) -/
structure PayState where
  ledger : LedgerDB
  allocations : List PaymentAllocation
  invoices : List Invoice
deriving DecidableEq, Repr

/-- Step (a) of `form_valid`: allocate to the invoice selected in the form, if
one was selected and it still has something outstanding, capped by the payment
amount.  Returns the allocation table and the `allocations_made` flag. -/
def selectedStep (allocs : List PaymentAllocation) (payment : Payment)
    (selected : Option Invoice) : Except PayErr (List PaymentAllocation × Bool) :=
  match selected with
  | none => .ok (allocs, false)
  | some inv =>
    if inv.total_amount - invoiceAllocated allocs inv.id > 0 then
      match allocCreate allocs payment.id inv.id
          (min payment.amount (inv.total_amount - invoiceAllocated allocs inv.id)) with
      | .ok allocs1 => .ok (allocs1, true)
      | .error e => .error e
    else .ok (allocs, false)

/-- `PaymentCreateView.form_valid` after the `Payment` row is saved, run in one
`transaction.atomic`.  `customer` is the row referenced by the payment's
customer FK (`self.object.customer`); `selected` is `form.cleaned_data.get(
'invoice')`; `manual` holds the parsed `allocation_{invoice_id}` POST fields
in POST order.  Steps: (a) allocate to the selected invoice up to its
outstanding; (b) create the manual allocations; (c) if neither made an
allocation, FIFO auto-allocate; (4) create one customer-payment ledger entry
for the full amount referencing the payment; (5) mark fully covered invoices
paid.  Any constraint failure aborts the whole unit. -/
def paymentFormValid (st : PayState) (payment : Payment) (customer : Customer)
    (selected : Option Invoice) (manual : List (Nat × Int)) : Except PayErr PayState :=
  -- step (a): the invoice selected in the form, if any
  match selectedStep st.allocations payment selected with
  | .error e => .error e
  | .ok (allocsA, madeA) =>
    -- step (b): manual POST allocations
    match processManual payment.id payment.company customer.id st.invoices selected
        manual allocsA madeA with
    | .error e => .error e
    | .ok (allocsB, madeB) =>
      -- step (c): FIFO auto-allocation when nothing was allocated explicitly
      match (if madeB then .ok allocsB
        else
          fifoLoop payment.id payment.amount
            (fifoQueryset st.invoices payment.company customer.id) allocsB :
          Except PayErr (List PaymentAllocation)) with
      | .error e => .error e
      | .ok allocsC =>
        -- step (4): the single customer-payment ledger entry
        match create_customer_payment_entry st.ledger payment.company customer
            payment.amount payment.payment_date
            ("Payment " ++ payment.payment_number ++ " (" ++ payment.payment_method ++ ")")
            (some (paymentContentType, payment.id)) with
        | .error _ => .error .ledgerConflict
        | .ok r =>
          -- step (5): invoice status updates
          .ok ⟨r.2, allocsC, statusSweep allocsC payment.id st.invoices⟩

/-- Two concurrent `_create_entry` calls under the interleaving
read₁, read₂, write₁ + commit₁, write₂ + commit₂.  The read in
`_create_entry` is guarded by `select_for_update()`, which locks only the rows
the query returns; when the party has no stored entries the locked row set is
empty and the database admits exactly this interleaving, so both transactions
compute their running balance from the same previous balance.  Each commit
still checks the unique constraint against the then-current state. -/
def concurrentCreatePair (db : LedgerDB) (op1 op2 : CreateOp) : LedgerDB :=
  let prev1 := readPreviousBalance db op1.company op1.party_type op1.party_id
  let prev2 := readPreviousBalance db op2.company op2.party_type op2.party_id
  let commit := fun (d : LedgerDB) (op : CreateOp) (rb : Int) =>
    match insertEntry d (mkEntry d op.company op.party_type op.party_id op.entry_type
        op.debit op.credit op.transaction_date op.description op.reference rb) with
    | .ok d1 => d1
    | .error _ => d
  let db1 := commit db op1 (prev1 + op1.debit - op1.credit)
  commit db1 op2 (prev2 + op2.debit - op2.credit)

/-! ### Order and sorting lemmas -/

theorem keyLe_refl (a : LedgerEntry) : keyLe a a = true := by
  simp [keyLe]

theorem keyLt_imp_keyLe {a b : LedgerEntry} (h : keyLt a b = true) : keyLe a b = true := by
  simp only [keyLt, Bool.or_eq_true, Bool.and_eq_true, beq_iff_eq, decide_eq_true_eq] at h
  simp only [keyLe, Bool.or_eq_true, Bool.and_eq_true, beq_iff_eq, decide_eq_true_eq]
  omega

theorem keyLt_eq_false_iff {a b : LedgerEntry} : keyLt a b = false ↔ keyLe b a = true := by
  simp only [keyLt, keyLe, Bool.or_eq_false_iff, Bool.or_eq_true, Bool.and_eq_false_iff,
    Bool.and_eq_true, beq_iff_eq, beq_eq_false_iff_ne, ne_eq, decide_eq_true_eq,
    decide_eq_false_iff_not]
  omega

theorem keyLe_trans {a b c : LedgerEntry} (h1 : keyLe a b = true) (h2 : keyLe b c = true) :
    keyLe a c = true := by
  simp only [keyLe, Bool.or_eq_true, Bool.and_eq_true, beq_iff_eq, decide_eq_true_eq] at *
  omega

theorem keyLe_total (a b : LedgerEntry) : keyLe a b = true ∨ keyLe b a = true := by
  simp only [keyLe, Bool.or_eq_true, Bool.and_eq_true, beq_iff_eq, decide_eq_true_eq]
  omega

theorem keyLe_antisymm_key {a b : LedgerEntry} (h1 : keyLe a b = true)
    (h2 : keyLe b a = true) :
    a.transaction_date = b.transaction_date ∧ a.created_at = b.created_at := by
  simp only [keyLe, Bool.or_eq_true, Bool.and_eq_true, beq_iff_eq, decide_eq_true_eq] at *
  omega

theorem mem_insertOrd {α : Type} (le : α → α → Bool) (x a : α) :
    ∀ l : List α, a ∈ insertOrd le x l ↔ a = x ∨ a ∈ l := by
  intro l
  induction l with
  | nil => simp [insertOrd]
  | cons b rest ih =>
    cases hle : le b x with
    | true =>
      simp only [insertOrd, hle, if_true, List.mem_cons, ih]
      tauto
    | false =>
      simp only [insertOrd, hle, Bool.false_eq_true, if_false, List.mem_cons]

theorem perm_insertOrd {α : Type} (le : α → α → Bool) (x : α) :
    ∀ l : List α, (insertOrd le x l).Perm (x :: l) := by
  intro l
  induction l with
  | nil => simp [insertOrd]
  | cons b rest ih =>
    by_cases h : le b x = true
    · simp only [insertOrd, h, if_true]
      exact ((ih.cons b).trans (List.Perm.swap x b rest))
    · simp [insertOrd, h]

theorem sortOrd_perm {α : Type} (le : α → α → Bool) (l : List α) :
    (sortOrd le l).Perm l := by
  suffices h : ∀ (l s : List α), (l.foldl (fun t x => insertOrd le x t) s).Perm (l ++ s) by
    simpa using h l []
  intro l
  induction l with
  | nil => intro s; simp
  | cons b rest ih =>
    intro s
    have h1 := ih (insertOrd le b s)
    have h2 : (rest ++ insertOrd le b s).Perm (rest ++ b :: s) :=
      List.Perm.append_left rest (perm_insertOrd le b s)
    have h3 : (rest ++ b :: s).Perm (b :: (rest ++ s)) := List.perm_middle
    simpa using (h1.trans h2).trans h3

theorem mem_sortOrd {α : Type} (le : α → α → Bool) (l : List α) (a : α) :
    a ∈ sortOrd le l ↔ a ∈ l :=
  (sortOrd_perm le l).mem_iff

/-- Sortedness of a list under a boolean relation: every element relates to
every later element. -/
def SortedBy {α : Type} (le : α → α → Bool) (l : List α) : Prop :=
  l.Pairwise (fun a b => le a b = true)

theorem insertOrd_sortedBy {α : Type} (le : α → α → Bool)
    (htot : ∀ a b, le a b = true ∨ le b a = true)
    (htrans : ∀ a b c, le a b = true → le b c = true → le a c = true)
    (x : α) : ∀ l : List α, SortedBy le l → SortedBy le (insertOrd le x l) := by
  intro l
  induction l with
  | nil => intro _; simp [insertOrd, SortedBy]
  | cons b rest ih =>
    intro hs
    rw [SortedBy, List.pairwise_cons] at hs
    cases hle : le b x with
    | true =>
      simp only [insertOrd, hle, if_true]
      rw [SortedBy, List.pairwise_cons]
      refine ⟨?_, ih hs.2⟩
      intro y hy
      rcases (mem_insertOrd le x y rest).1 hy with hyx | hyr
      · exact hyx ▸ hle
      · exact hs.1 y hyr
    | false =>
      simp only [insertOrd, hle, Bool.false_eq_true, if_false]
      have hxb : le x b = true := by
        rcases htot b x with hh | hh
        · simp [hle] at hh
        · exact hh
      rw [SortedBy, List.pairwise_cons]
      refine ⟨?_, List.Pairwise.cons hs.1 hs.2⟩
      intro y hy
      rcases List.mem_cons.1 hy with hyb | hyr
      · exact hyb ▸ hxb
      · exact htrans x b y hxb (hs.1 y hyr)

theorem sortOrd_sortedBy {α : Type} (le : α → α → Bool)
    (htot : ∀ a b, le a b = true ∨ le b a = true)
    (htrans : ∀ a b c, le a b = true → le b c = true → le a c = true)
    (l : List α) : SortedBy le (sortOrd le l) := by
  suffices h : ∀ (l s : List α), SortedBy le s →
      SortedBy le (l.foldl (fun t x => insertOrd le x t) s) by
    exact h l [] (by simp [SortedBy])
  intro l
  induction l with
  | nil => intro s hs; exact hs
  | cons b rest ih =>
    intro s hs
    exact ih (insertOrd le b s) (insertOrd_sortedBy le htot htrans b s hs)

/-- Inserting an element that every element of the list relates to appends it
at the end. -/
theorem insertOrd_eq_append {α : Type} (le : α → α → Bool) (x : α) :
    ∀ l : List α, (∀ a ∈ l, le a x = true) → insertOrd le x l = l ++ [x] := by
  intro l
  induction l with
  | nil => intro _; rfl
  | cons b rest ih =>
    intro h
    have hb : le b x = true := h b (by simp)
    simp only [insertOrd, hb, if_true, List.cons_append, List.cons.injEq, true_and]
    exact ih fun a ha => h a (by simp [ha])

theorem sortOrd_append_max {α : Type} (le : α → α → Bool) (l : List α) (x : α)
    (h : ∀ a ∈ l, le a x = true) :
    sortOrd le (l ++ [x]) = sortOrd le l ++ [x] := by
  have h1 : sortOrd le (l ++ [x]) = insertOrd le x (sortOrd le l) := by
    simp [sortOrd, List.foldl_append]
  rw [h1]
  exact insertOrd_eq_append le x (sortOrd le l)
    fun a ha => h a ((mem_sortOrd le l a).1 ha)

/-! ### Lemmas on `lastEntry?` -/

theorem lastEntry?_go :
    ∀ (l : List LedgerEntry) (acc : Option LedgerEntry) (m : LedgerEntry),
      l.foldl maxStep acc = some m →
      (m ∈ l ∨ acc = some m) ∧ (∀ x ∈ l, keyLe x m = true) ∧
        (∀ a, acc = some a → keyLe a m = true) := by
  intro l
  induction l with
  | nil =>
    intro acc m h
    simp only [List.foldl_nil] at h
    refine ⟨Or.inr h, by simp, fun a ha => ?_⟩
    rw [h] at ha
    cases ha
    exact keyLe_refl m
  | cons b rest ih =>
    intro acc m h
    simp only [List.foldl_cons] at h
    rcases ih (maxStep acc b) m h with ⟨hmem, hmax, hacc⟩
    cases hA : acc with
    | none =>
      have hsb : maxStep acc b = some b := by rw [hA]; rfl
      have hbm : keyLe b m = true := hacc b hsb
      refine ⟨?_, ?_, ?_⟩
      · rcases hmem with hm | hm
        · exact Or.inl (List.mem_cons_of_mem b hm)
        · rw [hsb] at hm
          cases hm
          exact Or.inl (List.mem_cons_self b rest)
      · intro x hx
        rcases List.mem_cons.1 hx with hxb | hxr
        · exact hxb ▸ hbm
        · exact hmax x hxr
      · intro a ha
        exact Option.noConfusion ha
    | some a0 =>
      by_cases hlt : keyLt a0 b = true
      · have hsb : maxStep acc b = some b := by rw [hA]; simp [maxStep, hlt]
        have hbm : keyLe b m = true := hacc b hsb
        refine ⟨?_, ?_, ?_⟩
        · rcases hmem with hm | hm
          · exact Or.inl (List.mem_cons_of_mem b hm)
          · rw [hsb] at hm
            cases hm
            exact Or.inl (List.mem_cons_self b rest)
        · intro x hx
          rcases List.mem_cons.1 hx with hxb | hxr
          · exact hxb ▸ hbm
          · exact hmax x hxr
        · intro a ha
          cases ha
          exact keyLe_trans (keyLt_imp_keyLe hlt) hbm
      · have hsa : maxStep acc b = some a0 := by rw [hA]; simp [maxStep, hlt]
        have ha0m : keyLe a0 m = true := hacc a0 hsa
        have hba0 : keyLe b a0 = true := keyLt_eq_false_iff.1 (by simpa using hlt)
        refine ⟨?_, ?_, ?_⟩
        · rcases hmem with hm | hm
          · exact Or.inl (List.mem_cons_of_mem b hm)
          · rw [hsa] at hm
            exact Or.inr hm
        · intro x hx
          rcases List.mem_cons.1 hx with hxb | hxr
          · exact hxb ▸ keyLe_trans hba0 ha0m
          · exact hmax x hxr
        · intro a ha
          cases ha
          exact ha0m

theorem lastEntry?_mem {l : List LedgerEntry} {m : LedgerEntry}
    (h : lastEntry? l = some m) : m ∈ l := by
  rcases lastEntry?_go l none m h with ⟨hmem, _, _⟩
  rcases hmem with hm | hm
  · exact hm
  · cases hm

theorem lastEntry?_max {l : List LedgerEntry} {m : LedgerEntry}
    (h : lastEntry? l = some m) : ∀ x ∈ l, keyLe x m = true :=
  (lastEntry?_go l none m h).2.1

theorem lastEntry?_isSome : ∀ {l : List LedgerEntry}, l ≠ [] → (lastEntry? l).isSome := by
  suffices hgo : ∀ (l : List LedgerEntry) (a : LedgerEntry),
      (l.foldl maxStep (some a)).isSome by
    intro l hl
    cases l with
    | nil => exact absurd rfl hl
    | cons b rest => exact hgo rest b
  intro l
  induction l with
  | nil => intro a; rfl
  | cons b rest ih =>
    intro a
    simp only [List.foldl_cons]
    by_cases h : keyLt a b = true
    · simpa [maxStep, h] using ih b
    · simpa [maxStep, h] using ih a

/-! ### Concrete scenarios used by the theorems -/

/-- A customer row used by the scenarios. -/
def aliceCustomer : Customer := ⟨1, 1, "Alice", false⟩

/-- Invoice-sent creation for customer 1, amount 30, referencing invoice 1. -/
def raceOp30 : CreateOp :=
  ⟨1, .customer, 1, .invoice, 30, 0, 5, "Invoice A", some (invoiceContentType, 1)⟩

/-- Invoice-sent creation for customer 1, amount 70, referencing invoice 2. -/
def raceOp70 : CreateOp :=
  ⟨1, .customer, 1, .invoice, 70, 0, 5, "Invoice B", some (invoiceContentType, 2)⟩

/-- The state after the two concurrent creations of spec scenario E run against
an empty party ledger. -/
def racedDB : LedgerDB := concurrentCreatePair LedgerDB.empty raceOp30 raceOp70

/-- An adjustment creation: customer 1, debit 100, transaction date 10. -/
def backOp1 : CreateOp := ⟨1, .customer, 1, .adjustment, 100, 0, 10, "first", none⟩

/-- A backdated adjustment creation: customer 1, debit 50, transaction date 5,
issued after `backOp1`. -/
def backOp2 : CreateOp := ⟨1, .customer, 1, .adjustment, 50, 0, 5, "backdated", none⟩

/-- The state after an entry dated 10 and then a backdated entry dated 5. -/
def backdatedDB : LedgerDB := applyOps LedgerDB.empty [backOp1, backOp2]

/-- A sent invoice of 500 for customer 1. -/
def overInvoice : Invoice := ⟨1, 1, 1, "INV-1", 5, "sent", 500, false⟩

/-- A payment of 100 by customer 1. -/
def overPayment : Payment := ⟨1, 1, 1, "PAY-1", 6, 100, "cash"⟩

/-- Recording `overPayment` with a manual POST allocation of 500 against
`overInvoice`. -/
def overAllocResult : Except PayErr PayState :=
  paymentFormValid ⟨LedgerDB.empty, [], [overInvoice]⟩ overPayment aliceCustomer
    none [(1, 500)]

/-- `create_adjustment_entry` called with `amount = 0`. -/
def zeroAdjustResult : Except CreateErr (LedgerEntry × LedgerDB) :=
  create_adjustment_entry LedgerDB.empty 1 .customer 1 0 true 5 "write-off"

/-! ### C1 -/

/-- C1: refuted at spec scenario E.  Two concurrent invoice-entry creations
(amounts 30 and 70) against a party with no existing entries: the
`select_for_update` read finds no row to lock, so under the interleaving where
both transactions read before either commits, both observe previous balance 0.
Two entries are produced, but their running balances are 30 and 70 — neither is
100 — and the final outstanding is 70, not 30 + 70: the update of the first
creation is lost, contradicting the claimed serialization. -/
theorem concurrent_create_on_empty_party_loses_update :
    racedDB.entries.length = 2 ∧
    racedDB.entries.map LedgerEntry.running_balance = [30, 70] ∧
    get_customer_outstanding racedDB 1 1 = 70 ∧
    racedDB.entries.all (fun e => e.running_balance != 30 + 70) = true := by
  decide

/-! ### C2 -/

/-- C2 as stated is false: the counterexample creates an entry dated 10 (debit
100) and then a backdated entry dated 5 (debit 50).  `_create_entry` computes
the new balance from the party's `(transaction_date, created_at)`-maximal
entry, so the backdated entry stores balance 150 although it comes first in
date order; the recurrence fails on the reordered sequence. -/
theorem backdated_create_breaks_recurrence :
    backdatedDB.entries.map LedgerEntry.running_balance = [100, 150] ∧
    backdatedDB.entries.map LedgerEntry.transaction_date = [10, 5] ∧
    partyChainOk backdatedDB 1 .customer 1 = false := by
  decide

/-! ### C3 -/

/-- C3: refuted on the manual-allocation path.  A payment of 100 recorded with
the manual POST field `allocation_1 = 500` against a sent invoice of 500:
`form_valid` creates the allocation row with no bound check (it never calls
`full_clean`), so the operation succeeds and the payment's stored allocations
sum to 500 > 100 — the very write `PaymentAllocation.clean` (here
`paymentAllocationClean`) is documented to reject. -/
theorem manual_allocation_exceeds_payment_amount :
    overAllocResult.toOption.map (fun st => st.allocations) = some [⟨1, 1, 500⟩] ∧
    overAllocResult.toOption.map
      (fun st => decide (paymentAllocated st.allocations overPayment.id ≤ overPayment.amount))
      = some false ∧
    paymentAllocationClean [] overPayment overInvoice 500 = false := by
  decide

/-! ### C4 -/

/-- C4: refuted at `create_adjustment_entry` with `amount = 0`.  The service
never runs `LedgerEntry.clean` (`LedgerEntry.objects.create` does not call
`full_clean`), so the call succeeds and persists a row with `debit = 0` and
`credit = 0` — a row `ledgerEntryClean` rejects — instead of raising
`ValidationError` before persistence. -/
theorem zero_adjustment_persists_invalid_entry :
    zeroAdjustResult.toOption.map
      (fun r => (r.2.entries.length, r.1.debit, r.1.credit, ledgerEntryClean r.1))
      = some (1, 0, 0, false) := by
  decide

/-! ### C7 -/

/-- C7: refuted at `backdatedDB`.  Customer 1's latest entry by
`(transaction_date, created_at)` is the one dated 10 with running balance
100 > 0, and the customer row exists, so the claim includes Alice with balance
100.  But `get_all_outstanding_customers` aggregates `Max('transaction_date')`
(= 10, from the first entry) and `Max('created_at')` (= 1, from the backdated
entry) independently; no entry carries both, the re-fetch finds nothing, and
the customer is silently dropped: the result is empty. -/
theorem outstanding_customers_drops_backdated_party :
    get_all_outstanding_customers backdatedDB [aliceCustomer] 1 = [] ∧
    get_customer_outstanding backdatedDB 1 1 = 100 ∧
    (0 : Int) < get_customer_outstanding backdatedDB 1 1 := by
  decide

/-! ### C5 -/

/-- C5: once an entry with a non-null reference exists, any further
`_create_entry` call with the same `(reference_type, reference_id,
entry_type)` fails on the `unique_reference_entry` constraint with a conflict
error, and — the call being one `transaction.atomic` unit — the store,
including the existing entry and the party's ledger, is unchanged. -/
theorem duplicate_reference_create_rejected (db : LedgerDB) (company : Nat)
    (pt : PartyType) (pid : Nat) (et : EntryType) (debit credit : Int) (tdate : Nat)
    (descr : String) (r : Nat × Nat) (e0 : LedgerEntry) (he : e0 ∈ db.entries)
    (href : e0.reference = some r) (het : e0.entry_type = et) :
    createEntry db company pt pid et debit credit tdate descr (some r) =
      .error .conflict ∧
    applyCreate db ⟨company, pt, pid, et, debit, credit, tdate, descr, some r⟩ = db := by
  have hc : hasReferenceConflict db (some r) et = true := by
    simp only [hasReferenceConflict, List.any_eq_true]
    refine ⟨e0, he, ?_⟩
    simp [href, het]
  have hcreate : createEntry db company pt pid et debit credit tdate descr (some r) =
      .error .conflict := by
    simp [createEntry, insertEntry, mkEntry, hc]
  exact ⟨hcreate, by simp [applyCreate, hcreate]⟩

/-- A ledger seeded with one invoice entry referencing invoice 1. -/
def refSeedDB : LedgerDB := applyCreate LedgerDB.empty raceOp30

/-- Witness for C5: re-sending the invoice entry for invoice 1 against
`refSeedDB` is rejected and leaves the store unchanged. -/
theorem duplicate_reference_create_rejected_witness :
    createEntry refSeedDB 1 .customer 1 .invoice 30 0 6 "again"
      (some (invoiceContentType, 1)) = .error .conflict ∧
    applyCreate refSeedDB
      ⟨1, .customer, 1, .invoice, 30, 0, 6, "again", some (invoiceContentType, 1)⟩ =
      refSeedDB :=
  duplicate_reference_create_rejected refSeedDB 1 .customer 1 .invoice 30 0 6 "again"
    (invoiceContentType, 1)
    ⟨0, 1, .customer, 1, .invoice, 30, 0, 30, some (invoiceContentType, 1), "Invoice A", 5, 0⟩
    (by decide) (by decide) (by decide)

/-! ### C9 -/

/-- C9: `get_customer_outstanding` returns 0 (without failing) for a customer
with no entries, and otherwise the running balance of the customer's most
recent entry — the one every entry compares `(transaction_date, created_at)`
below-or-equal to.  The `created_at` values of the party's entries are assumed
pairwise distinct, as the store's monotone insertion stamps guarantee. -/
theorem customer_outstanding_latest_or_zero (db : LedgerDB) (company cid : Nat)
    (hkeys : ((partyEntries db company .customer cid).map
      LedgerEntry.created_at).Nodup) :
    (partyEntries db company .customer cid = [] →
      get_customer_outstanding db company cid = 0) ∧
    ∀ e ∈ partyEntries db company .customer cid,
      (∀ x ∈ partyEntries db company .customer cid, keyLe x e = true) →
      get_customer_outstanding db company cid = e.running_balance := by
  constructor
  · intro h
    simp [get_customer_outstanding, h, lastEntry?]
  · intro e he hmaxe
    have hne : partyEntries db company .customer cid ≠ [] := by
      intro h
      rw [h] at he
      cases he
    obtain ⟨m, hm⟩ := Option.isSome_iff_exists.1 (lastEntry?_isSome hne)
    have hmem := lastEntry?_mem hm
    have hem : keyLe e m = true := lastEntry?_max hm e he
    have hme : keyLe m e = true := hmaxe m hmem
    have hkey := keyLe_antisymm_key hme hem
    have hme2 : m = e := List.inj_on_of_nodup_map hkeys hmem he hkey.2
    simp [get_customer_outstanding, hm, hme2]

/-- Witness for C9: an empty ledger yields outstanding 0 for customer 7 of
company 1, and on `backdatedDB` customer 1's most recent entry (the one dated
10) supplies the outstanding balance 100. -/
theorem customer_outstanding_latest_or_zero_witness :
    get_customer_outstanding LedgerDB.empty 1 7 = 0 ∧
    get_customer_outstanding backdatedDB 1 1 = (100 : Int) :=
  ⟨(customer_outstanding_latest_or_zero LedgerDB.empty 1 7 (by decide)).1 (by decide),
   (customer_outstanding_latest_or_zero backdatedDB 1 1 (by decide)).2
    ⟨0, 1, .customer, 1, .adjustment, 100, 0, 100, none, "first", 10, 0⟩
    (by decide) (by decide)⟩

/-! ### C10 -/

theorem mem_outstandingStep {custEntries : List LedgerEntry} {customers : List Customer}
    {company : Nat} {acc : List OutstandingRow} {pid : Nat} {r : OutstandingRow}
    (hr : r ∈ outstandingStep custEntries customers company acc pid) :
    r ∈ acc ∨ ∃ c, customerGet customers company r.customer_id = some c := by
  unfold outstandingStep at hr
  split at hr
  · exact Or.inl hr
  · split at hr
    · split at hr
      · rename_i last_entry _ _ c hc
        rcases List.mem_append.1 hr with hin | hone
        · exact Or.inl hin
        · refine Or.inr ⟨c, ?_⟩
          have hid : r.customer_id = c.id := by
            simp at hone
            rw [hone]
          have hpred := List.find?_some hc
          have hcid : c.id = pid := by
            simp only [Bool.and_eq_true, beq_iff_eq] at hpred
            exact hpred.1.2
          rw [hid, hcid]
          exact hc
      · exact Or.inl hr
    · exact Or.inl hr

theorem outstandingFold_some (custEntries : List LedgerEntry) (customers : List Customer)
    (company : Nat) :
    ∀ (pids : List Nat) (acc : List OutstandingRow),
      (∀ r ∈ acc, ∃ c, customerGet customers company r.customer_id = some c) →
      ∀ r ∈ pids.foldl (outstandingStep custEntries customers company) acc,
        ∃ c, customerGet customers company r.customer_id = some c := by
  intro pids
  induction pids with
  | nil => intro acc hacc r hr; exact hacc r hr
  | cons p rest ih =>
    intro acc hacc r hr
    simp only [List.foldl_cons] at hr
    refine ih _ ?_ r hr
    intro r2 hr2
    rcases mem_outstandingStep hr2 with hin | hsome
    · exact hacc r2 hin
    · exact hsome

/-- C10: when a customer `party_id` has no matching (non-deleted) `Customer`
row in the company, `get_all_outstanding_customers` silently omits that party:
the `Customer.DoesNotExist` branch appends nothing, so no returned row carries
that `party_id` (and the function is total, so no error is raised). -/
theorem outstanding_customers_omit_missing_customer (db : LedgerDB)
    (customers : List Customer) (company pid : Nat)
    (hnone : customerGet customers company pid = none) :
    (get_all_outstanding_customers db customers company).all
      (fun r => r.customer_id != pid) = true := by
  rw [List.all_eq_true]
  intro r hr
  unfold get_all_outstanding_customers at hr
  have hr2 := (mem_sortOrd _ _ r).1 hr
  obtain ⟨c, hc⟩ := outstandingFold_some _ customers company _ [] (by simp) r hr2
  have hne : r.customer_id ≠ pid := by
    intro h
    rw [h, hnone] at hc
    cases hc
  simpa using hne

/-- Witness for C10: customer 2 has a positive ledger balance but no
`Customer` row, so the outstanding-customer report contains no row with
`customer_id = 2`. -/
theorem outstanding_customers_omit_missing_customer_witness :
    (get_all_outstanding_customers
        (applyCreate LedgerDB.empty ⟨1, .customer, 2, .adjustment, 100, 0, 5, "x", none⟩)
        [aliceCustomer] 1).all (fun r => r.customer_id != 2) = true :=
  outstanding_customers_omit_missing_customer
    (applyCreate LedgerDB.empty ⟨1, .customer, 2, .adjustment, 100, 0, 5, "x", none⟩)
    [aliceCustomer] 1 2 (by decide)

/-! ### C2, amended: appended (non-backdated) creations keep the recurrence -/

/-- The balance after the last entry of a chain, `p` when the chain is
empty. -/
def lastBal (p : Int) (l : List LedgerEntry) : Int :=
  match l.getLast? with
  | some e => e.running_balance
  | none => p

theorem lastBal_cons (p : Int) (e : LedgerEntry) (rest : List LedgerEntry) :
    lastBal p (e :: rest) = lastBal e.running_balance rest := by
  cases rest with
  | nil => simp [lastBal]
  | cons f r =>
    cases hg : (f :: r).getLast? with
    | none => simp at hg
    | some a => simp [lastBal, List.getLast?_cons_cons, hg]

theorem chainOk_append_singleton (n : LedgerEntry) :
    ∀ (p : Int) (l : List LedgerEntry),
      chainOk p (l ++ [n]) =
        (chainOk p l && (n.running_balance == lastBal p l + n.debit - n.credit)) := by
  intro p l
  induction l generalizing p with
  | nil => simp [chainOk, lastBal]
  | cons e rest ih =>
    simp only [List.cons_append, chainOk, List.append_eq]
    rw [ih e.running_balance, lastBal_cons, Bool.and_assoc]

/-- Appending an entry strictly above every existing key makes it the
`(transaction_date desc, created_at desc) первый` — the scanned maximum. -/
theorem lastEntry?_append_max (l : List LedgerEntry) (n : LedgerEntry)
    (h : ∀ e ∈ l, keyLt e n = true) : lastEntry? (l ++ [n]) = some n := by
  unfold lastEntry?
  rw [List.foldl_append]
  cases hm : l.foldl maxStep none with
  | none => rfl
  | some m =>
    have hmem : m ∈ l := lastEntry?_mem (l := l) hm
    simp [maxStep, h m hmem]

/-- The well-formedness invariant every store reachable through
`LedgerService` creations satisfies: `created_at` stamps are below the
counter, and for every party the chain recurrence holds on the sorted entries
with the scanned previous balance equal to the sorted chain's tail balance. -/
def DBInv (db : LedgerDB) : Prop :=
  (∀ e ∈ db.entries, e.created_at < db.nextId) ∧
  ∀ (c : Nat) (pt : PartyType) (pid : Nat),
    chainOk 0 (sortByKey (partyEntries db c pt pid)) = true ∧
    readPreviousBalance db c pt pid = lastBal 0 (sortByKey (partyEntries db c pt pid))

/-- The non-backdating condition for one creation: its transaction date is at
least every transaction date already stored for its party. -/
def opOkAt (db : LedgerDB) (op : CreateOp) : Prop :=
  ∀ e ∈ partyEntries db op.company op.party_type op.party_id,
    e.transaction_date ≤ op.transaction_date

/-- A sequence of creations in which each one, at its turn, is not backdated
for its own party. -/
inductive MonotoneOps : LedgerDB → List CreateOp → Prop where
  | nil (db : LedgerDB) : MonotoneOps db []
  | cons (db : LedgerDB) (op : CreateOp) (ops : List CreateOp) :
      opOkAt db op → MonotoneOps (applyCreate db op) ops → MonotoneOps db (op :: ops)

/-- Inserting one entry that sits at the tail of its party's
`(transaction_date, created_at)` order, with balance computed from the scanned
previous balance, preserves the invariant. -/
theorem DBInv_insert (db : LedgerDB) (n : LedgerEntry)
    (hn_created : n.created_at = db.nextId)
    (hn_rb : n.running_balance =
      readPreviousBalance db n.company n.party_type n.party_id + n.debit - n.credit)
    (hdate : ∀ e ∈ partyEntries db n.company n.party_type n.party_id,
      e.transaction_date ≤ n.transaction_date)
    (hinv : DBInv db) :
    DBInv ⟨db.entries ++ [n], db.nextId + 1⟩ := by
  constructor
  · intro e he
    simp only [List.mem_append, List.mem_singleton] at he
    rcases he with he | he
    · exact Nat.lt_succ_of_lt (hinv.1 e he)
    · subst he
      rw [hn_created]
      exact Nat.lt_succ_self db.nextId
  · intro c pt pid
    by_cases hm : matchesParty c pt pid n = true
    · obtain ⟨rfl, rfl, rfl⟩ : c = n.company ∧ pt = n.party_type ∧ pid = n.party_id := by
        simp only [matchesParty, Bool.and_eq_true, beq_iff_eq] at hm
        exact ⟨hm.1.1.symm, hm.1.2.symm, hm.2.symm⟩
      have hP : partyEntries ⟨db.entries ++ [n], db.nextId + 1⟩
          n.company n.party_type n.party_id =
          partyEntries db n.company n.party_type n.party_id ++ [n] := by
        simp [partyEntries, List.filter_append, hm]
      have hkeys : ∀ e ∈ partyEntries db n.company n.party_type n.party_id,
          keyLt e n = true := by
        intro e he
        have hd : e.transaction_date ≤ n.transaction_date := hdate e he
        have hcr : e.created_at < db.nextId := hinv.1 e (List.mem_of_mem_filter he)
        simp only [keyLt, Bool.or_eq_true, Bool.and_eq_true, beq_iff_eq,
          decide_eq_true_eq]
        omega
      have hsorted : sortByKey (partyEntries db n.company n.party_type n.party_id ++ [n]) =
          sortByKey (partyEntries db n.company n.party_type n.party_id) ++ [n] :=
        sortOrd_append_max keyLe _ _ (fun a ha => keyLt_imp_keyLe (hkeys a ha))
      have hlast := lastEntry?_append_max
        (partyEntries db n.company n.party_type n.party_id) n hkeys
      constructor
      · rw [hP, hsorted, chainOk_append_singleton, Bool.and_eq_true]
        refine ⟨(hinv.2 n.company n.party_type n.party_id).1, ?_⟩
        have hprev := (hinv.2 n.company n.party_type n.party_id).2
        rw [beq_iff_eq, hn_rb, hprev]
      · have hlhs : readPreviousBalance ⟨db.entries ++ [n], db.nextId + 1⟩
            n.company n.party_type n.party_id = n.running_balance := by
          unfold readPreviousBalance
          rw [hP, hlast]
        have hrhs : lastBal 0 (sortByKey (partyEntries ⟨db.entries ++ [n], db.nextId + 1⟩
            n.company n.party_type n.party_id)) = n.running_balance := by
          rw [hP, hsorted]
          unfold lastBal
          rw [List.getLast?_concat]
        rw [hlhs, hrhs]
    · have hP : partyEntries ⟨db.entries ++ [n], db.nextId + 1⟩ c pt pid =
          partyEntries db c pt pid := by
        simp only [Bool.not_eq_true] at hm
        simp [partyEntries, List.filter_append, hm]
      constructor
      · rw [hP]
        exact (hinv.2 c pt pid).1
      · have hlhs : readPreviousBalance ⟨db.entries ++ [n], db.nextId + 1⟩ c pt pid =
            readPreviousBalance db c pt pid := by
          unfold readPreviousBalance
          rw [hP]
        rw [hlhs, hP]
        exact (hinv.2 c pt pid).2

theorem DBInv_applyCreate (db : LedgerDB) (op : CreateOp) (hinv : DBInv db)
    (hok : opOkAt db op) : DBInv (applyCreate db op) := by
  unfold applyCreate
  rw [createEntry_eq]
  cases hc : hasReferenceConflict db op.reference op.entry_type with
  | true => simpa [hc] using hinv
  | false =>
    simp only [hc, Bool.false_eq_true, if_false]
    exact DBInv_insert db
      (mkEntry db op.company op.party_type op.party_id op.entry_type op.debit op.credit
        op.transaction_date op.description op.reference
        (readPreviousBalance db op.company op.party_type op.party_id +
          op.debit - op.credit))
      rfl rfl hok hinv

theorem DBInv_applyOps (db : LedgerDB) (ops : List CreateOp) (hinv : DBInv db)
    (hmono : MonotoneOps db ops) : DBInv (applyOps db ops) := by
  induction hmono with
  | nil db2 => exact hinv
  | cons db2 op ops2 hop hrest ih =>
    exact ih (DBInv_applyCreate db2 op hinv hop)

/-- C2, amended: the counterexample `backdated_create_breaks_recurrence` shows
the claim fails for backdated creations, so it is amended to: after any
sequence of creations from the empty store in which every creation's
transaction_date is at least every transaction_date already stored for its
party (each new entry extends the tail of the `(transaction_date,
created_at)` order), the recurrence
`running_balance[i] = running_balance[i-1] + debit[i] - credit[i]` (from 0)
holds for every party on its entries sorted by `(transaction_date,
created_at)`. -/
theorem monotone_creates_satisfy_recurrence (ops : List CreateOp)
    (hmono : MonotoneOps LedgerDB.empty ops) (company : Nat) (pt : PartyType)
    (pid : Nat) :
    partyChainOk (applyOps LedgerDB.empty ops) company pt pid = true := by
  have hbase : DBInv LedgerDB.empty := by
    refine ⟨by simp [LedgerDB.empty], fun c pt2 pid2 => ⟨rfl, rfl⟩⟩
  exact (((DBInv_applyOps LedgerDB.empty ops hbase hmono).2) company pt pid).1

/-- Witness for the amended C2: two creations with ascending dates (the
reverse of the counterexample's order) keep the recurrence for their party —
and trivially for every other party. -/
theorem monotone_creates_satisfy_recurrence_witness :
    partyChainOk (applyOps LedgerDB.empty [backOp2, backOp1]) 1 PartyType.customer 1 =
      true :=
  monotone_creates_satisfy_recurrence [backOp2, backOp1]
    (MonotoneOps.cons _ _ _ (by unfold opOkAt; decide)
      (MonotoneOps.cons _ _ _ (by unfold opOkAt; decide) (MonotoneOps.nil _)))
    1 PartyType.customer 1

/-! ### C6 -/

/-- The FIFO queryset as the spec words it: the customer's open invoices with
status `sent`, ordered by invoice date ascending.  This definition follows the
spec's sentence and is compared with the code's `fifoQueryset`, whose filter
also names a `partial` status that `Invoice.STATUS_CHOICES` does not
contain. -/
def fifoSpecQueryset (invoices : List Invoice) (company customerId : Nat) : List Invoice :=
  sortOrd dateLe (invoices.filter
    (fun i => !i.is_deleted && i.company == company && i.customer == customerId &&
      i.status == "sent"))

/-- On invoices whose status is never the impossible `partial`, the code's
FIFO queryset coincides with the spec's sent-only queryset. -/
theorem fifoQueryset_eq_spec (invoices : List Invoice) (company customerId : Nat)
    (hstat : ∀ i ∈ invoices, i.status ≠ "partial") :
    fifoQueryset invoices company customerId =
      fifoSpecQueryset invoices company customerId := by
  unfold fifoQueryset fifoSpecQueryset
  congr 1
  apply List.filter_congr
  intro i hi
  have hp : (i.status == "partial") = false := by
    simp [hstat i hi]
  rw [hp]
  simp

/-- The FIFO loop never hits the duplicate-allocation constraint when the
iterated invoices have distinct ids and the payment has no allocation against
any of them yet. -/
theorem fifoLoop_ok (paymentId : Nat) :
    ∀ (invs : List Invoice) (remaining : Int) (allocs : List PaymentAllocation),
      (invs.map Invoice.id).Nodup →
      (∀ i ∈ invs, ∀ a ∈ allocs, ¬(a.payment = paymentId ∧ a.invoice = i.id)) →
      ∃ res, fifoLoop paymentId remaining invs allocs = .ok res := by
  intro invs
  induction invs with
  | nil => intro remaining allocs _ _; exact ⟨allocs, rfl⟩
  | cons inv rest ih =>
    intro remaining allocs hnodup hfree
    rw [List.map_cons, List.nodup_cons] at hnodup
    by_cases hrem : remaining ≤ 0
    · exact ⟨allocs, by simp [fifoLoop, hrem]⟩
    · by_cases hout : inv.total_amount - invoiceAllocated allocs inv.id ≤ 0
      · obtain ⟨res, hres⟩ := ih remaining allocs hnodup.2
          (fun i hi a ha => hfree i (List.mem_cons_of_mem inv hi) a ha)
        exact ⟨res, by simp [fifoLoop, hrem, hout, hres]⟩
      · have hnoex : allocs.any
            (fun a => a.payment == paymentId && a.invoice == inv.id) = false := by
          rw [List.any_eq_false]
          intro a ha
          have hf := hfree inv (List.mem_cons_self inv rest) a ha
          simp only [Bool.and_eq_true, beq_iff_eq]
          tauto
        obtain ⟨res, hres⟩ := ih
          (remaining - min remaining (inv.total_amount - invoiceAllocated allocs inv.id))
          (allocs ++ [⟨paymentId, inv.id,
            min remaining (inv.total_amount - invoiceAllocated allocs inv.id)⟩])
          hnodup.2
          (by
            intro i hi a ha
            rcases List.mem_append.1 ha with hin | hone
            · exact hfree i (List.mem_cons_of_mem inv hi) a hin
            · simp only [List.mem_singleton] at hone
              subst hone
              rintro ⟨_, hi2⟩
              have hi3 : inv.id = i.id := hi2
              exact hnodup.1 (by rw [hi3]; exact List.mem_map_of_mem Invoice.id hi))
        refine ⟨res, ?_⟩
        simp only [fifoLoop, hrem, hout, ite_false, allocCreate, hnoex,
          Bool.false_eq_true, if_false]
        exact hres

/-- C6: when no invoice is selected and no manual amounts are posted, the
recording allocates by the FIFO loop over exactly the spec's queryset — the
customer's non-deleted `sent` invoices of the company, date ascending, each
receiving `min(remaining, outstanding)` — and (for every payment recording
that succeeds, whatever the selection or manual input) the ledger grows by
exactly one customer-payment entry, for the full payment amount, referencing
the `Payment` object.  Hypotheses: no invoice carries the impossible status
`partial`, invoice ids are distinct, the freshly created payment has no
allocations yet, and no ledger entry already references it. -/
theorem payment_fifo_allocation_single_ledger_entry
    (st : PayState) (payment : Payment) (customer : Customer)
    (hstat : ∀ i ∈ st.invoices, i.status ≠ "partial")
    (hids : (st.invoices.map Invoice.id).Nodup)
    (hfresh : ∀ a ∈ st.allocations, a.payment ≠ payment.id)
    (hnoconf : hasReferenceConflict st.ledger (some (paymentContentType, payment.id))
      EntryType.payment = false) :
    (∃ st1 allocsC,
      paymentFormValid st payment customer none [] = .ok st1 ∧
      fifoLoop payment.id payment.amount
        (fifoSpecQueryset st.invoices payment.company customer.id) st.allocations =
        .ok allocsC ∧
      st1.allocations = allocsC) ∧
    ∀ (selected : Option Invoice) (manual : List (Nat × Int)) (st2 : PayState),
      paymentFormValid st payment customer selected manual = .ok st2 →
      ∃ e, st2.ledger.entries = st.ledger.entries ++ [e] ∧
        e.entry_type = EntryType.payment ∧ e.debit = 0 ∧ e.credit = payment.amount ∧
        e.party_type = PartyType.customer ∧ e.party_id = customer.id ∧
        e.reference = some (paymentContentType, payment.id) := by
  have hq : fifoQueryset st.invoices payment.company customer.id =
      fifoSpecQueryset st.invoices payment.company customer.id :=
    fifoQueryset_eq_spec _ _ _ hstat
  have hdesc : (("Payment " ++ payment.payment_number ++ " (" ++
      payment.payment_method ++ ")") == "") = false := by
    rw [beq_eq_false_iff_ne]
    intro h
    have hlen := congrArg String.length h
    simp only [String.length_append] at hlen
    have h8 : "Payment ".length = 8 := rfl
    have h0 : "".length = 0 := rfl
    omega
  constructor
  · -- the FIFO branch
    have hqn : ((fifoSpecQueryset st.invoices payment.company customer.id).map
        Invoice.id).Nodup := by
      have hsub : (st.invoices.filter
          (fun i => !i.is_deleted && i.company == payment.company &&
            i.customer == customer.id && i.status == "sent")).Sublist st.invoices :=
        List.filter_sublist st.invoices
      have hfn : ((st.invoices.filter
          (fun i => !i.is_deleted && i.company == payment.company &&
            i.customer == customer.id && i.status == "sent")).map Invoice.id).Nodup :=
        hids.sublist (hsub.map Invoice.id)
      exact ((sortOrd_perm dateLe _).map Invoice.id).nodup_iff.mpr hfn
    obtain ⟨res, hres⟩ := fifoLoop_ok payment.id
      (fifoSpecQueryset st.invoices payment.company customer.id) payment.amount
      st.allocations hqn
      (fun i _ a ha hc => hfresh a ha hc.1)
    refine ⟨⟨⟨st.ledger.entries ++ [mkEntry st.ledger payment.company .customer customer.id
        .payment 0 payment.amount payment.payment_date
        ("Payment " ++ payment.payment_number ++ " (" ++ payment.payment_method ++ ")")
        (some (paymentContentType, payment.id))
        (readPreviousBalance st.ledger payment.company .customer customer.id + 0 -
          payment.amount)], st.ledger.nextId + 1⟩, res,
      statusSweep res payment.id st.invoices⟩, res, ?_, hres, rfl⟩
    have hstep : paymentFormValid st payment customer none [] =
        match fifoLoop payment.id payment.amount
          (fifoQueryset st.invoices payment.company customer.id) st.allocations with
        | .error e => .error e
        | .ok allocsC =>
          match create_customer_payment_entry st.ledger payment.company customer
              payment.amount payment.payment_date
              ("Payment " ++ payment.payment_number ++ " (" ++ payment.payment_method ++ ")")
              (some (paymentContentType, payment.id)) with
          | .error _ => .error .ledgerConflict
          | .ok r => .ok ⟨r.2, allocsC, statusSweep allocsC payment.id st.invoices⟩ := rfl
    rw [hstep, hq, hres]
    unfold create_customer_payment_entry
    rw [createEntry_eq]
    simp [hdesc, hnoconf, mkEntry]
  · -- every successful recording appends exactly one payment ledger entry
    intro selected manual st2 hok
    unfold paymentFormValid at hok
    split at hok
    · cases hok
    · split at hok
      · cases hok
      · split at hok
        · cases hok
        · rename_i heq4
          revert hok
          split
          · intro hok; cases hok
          · rename_i r hcr
            intro hok
            cases hok
            unfold create_customer_payment_entry at hcr
            rw [createEntry_eq] at hcr
            split at hcr
            · cases hcr
            · cases hcr
              refine ⟨_, rfl, rfl, rfl, rfl, rfl, rfl, rfl⟩

/-- Spec scenario D, invoice A: sent, dated 1, total 100. -/
def invoiceA : Invoice := ⟨1, 1, 1, "A", 1, "sent", 100, false⟩

/-- Spec scenario D, invoice B: sent, dated 2, total 80. -/
def invoiceB : Invoice := ⟨2, 1, 1, "B", 2, "sent", 80, false⟩

/-- Spec scenario D: a payment of 150 by customer 1. -/
def pay150 : Payment := ⟨1, 1, 1, "PAY-1", 6, 150, "cash"⟩

/-- Spec scenario D initial state: no ledger entries, no allocations, the two
open invoices. -/
def scenarioDState : PayState := ⟨LedgerDB.empty, [], [invoiceA, invoiceB]⟩

/-- Witness for C6 at spec scenario D: recording the 150 payment with no
selection and no manual amounts FIFO-allocates over the sent invoices sorted
by date and appends exactly one payment ledger entry of 150 referencing the
payment. -/
theorem payment_fifo_allocation_single_ledger_entry_witness :
    (∃ st1 allocsC,
      paymentFormValid scenarioDState pay150 aliceCustomer none [] = .ok st1 ∧
      fifoLoop pay150.id pay150.amount
        (fifoSpecQueryset scenarioDState.invoices pay150.company aliceCustomer.id)
        scenarioDState.allocations = .ok allocsC ∧
      st1.allocations = allocsC) ∧
    ∀ (selected : Option Invoice) (manual : List (Nat × Int)) (st2 : PayState),
      paymentFormValid scenarioDState pay150 aliceCustomer selected manual = .ok st2 →
      ∃ e, st2.ledger.entries = scenarioDState.ledger.entries ++ [e] ∧
        e.entry_type = EntryType.payment ∧ e.debit = 0 ∧ e.credit = pay150.amount ∧
        e.party_type = PartyType.customer ∧ e.party_id = aliceCustomer.id ∧
        e.reference = some (paymentContentType, pay150.id) :=
  payment_fifo_allocation_single_ledger_entry scenarioDState pay150 aliceCustomer
    (by decide) (by decide) (by decide) (by decide)

/-! ### C8 -/

/-- An entry with its running balance blanked: recalculation rewrites only
this field, so two entries with equal `stripRb` agree on everything else. -/
def stripRb (e : LedgerEntry) : LedgerEntry :=
  { e with running_balance := 0 }

theorem stripRb_id {a b : LedgerEntry} (h : stripRb a = stripRb b) : a.id = b.id := by
  have h0 := congrArg LedgerEntry.id h
  exact h0

theorem stripRb_created {a b : LedgerEntry} (h : stripRb a = stripRb b) :
    a.created_at = b.created_at := by
  have h0 := congrArg LedgerEntry.created_at h
  exact h0

theorem matchesParty_strip {c : Nat} {pt : PartyType} {pid : Nat} {a b : LedgerEntry}
    (h : stripRb a = stripRb b) : matchesParty c pt pid a = matchesParty c pt pid b := by
  have h1 : a.company = b.company := by
    have h0 := congrArg LedgerEntry.company h
    exact h0
  have h2 : a.party_type = b.party_type := by
    have h0 := congrArg LedgerEntry.party_type h
    exact h0
  have h3 : a.party_id = b.party_id := by
    have h0 := congrArg LedgerEntry.party_id h
    exact h0
  unfold matchesParty
  rw [h1, h2, h3]

theorem keyLe_strip {a a2 b b2 : LedgerEntry} (ha : stripRb a = stripRb a2)
    (hb : stripRb b = stripRb b2) : keyLe a b = keyLe a2 b2 := by
  have h1 : a.transaction_date = a2.transaction_date := by
    have h0 := congrArg LedgerEntry.transaction_date ha
    exact h0
  have h2 : b.transaction_date = b2.transaction_date := by
    have h0 := congrArg LedgerEntry.transaction_date hb
    exact h0
  have h3 : a.created_at = a2.created_at := stripRb_created ha
  have h4 : b.created_at = b2.created_at := stripRb_created hb
  unfold keyLe
  rw [h1, h2, h3, h4]

theorem recalcSweep_final : ∀ (l : List LedgerEntry) (acc : Int),
    (recalcSweep acc l).2.1 = acc + sumDC l := by
  intro l
  induction l with
  | nil => intro acc; simp [recalcSweep, sumDC]
  | cons e rest ih =>
    intro acc
    show (recalcSweep (acc + e.debit - e.credit) rest).2.1 = acc + sumDC (e :: rest)
    rw [ih]
    unfold sumDC
    rw [List.map_cons, List.sum_cons]
    ring

theorem recalcSweep_strip : ∀ (l : List LedgerEntry) (acc : Int),
    (recalcSweep acc l).1.map stripRb = l.map stripRb := by
  intro l
  induction l with
  | nil => intro acc; rfl
  | cons e rest ih =>
    intro acc
    show stripRb { e with running_balance := acc + e.debit - e.credit } ::
        ((recalcSweep (acc + e.debit - e.credit) rest).1.map stripRb) =
      stripRb e :: rest.map stripRb
    rw [ih]
    rfl

theorem recalcSweep_ids : ∀ (l : List LedgerEntry) (acc : Int),
    (recalcSweep acc l).1.map LedgerEntry.id = l.map LedgerEntry.id := by
  intro l acc
  have h1 : (recalcSweep acc l).1.map LedgerEntry.id =
      ((recalcSweep acc l).1.map stripRb).map LedgerEntry.id := by
    rw [List.map_map]
    rfl
  have h2 : l.map LedgerEntry.id = (l.map stripRb).map LedgerEntry.id := by
    rw [List.map_map]
    rfl
  rw [h1, h2, recalcSweep_strip]

theorem mem_recalcSweep_strip {l : List LedgerEntry} {acc : Int} {u : LedgerEntry}
    (hu : u ∈ (recalcSweep acc l).1) : ∃ p ∈ l, stripRb u = stripRb p := by
  have h1 : stripRb u ∈ (recalcSweep acc l).1.map stripRb := List.mem_map_of_mem _ hu
  rw [recalcSweep_strip] at h1
  obtain ⟨p, hp, he⟩ := List.mem_map.1 h1
  exact ⟨p, hp, he.symm⟩

/-- A second sweep over already recomputed balances changes nothing and issues
no writes. -/
theorem recalcSweep_fixed : ∀ (l : List LedgerEntry) (acc : Int),
    recalcSweep acc ((recalcSweep acc l).1) =
      ((recalcSweep acc l).1, (recalcSweep acc l).2.1, 0) := by
  intro l
  induction l with
  | nil => intro acc; rfl
  | cons e rest ih =>
    intro acc
    simp [recalcSweep, ih]

theorem replaceById_cons_of_ne {u : LedgerEntry} {upd : List LedgerEntry}
    {x : LedgerEntry} (h : u.id ≠ x.id) :
    replaceById (u :: upd) x = replaceById upd x := by
  unfold replaceById
  rw [List.find?_cons_of_neg _ (by simp [h])]

theorem find?_id_self : ∀ {upd : List LedgerEntry} {u : LedgerEntry},
    u ∈ upd → (upd.map LedgerEntry.id).Nodup →
    upd.find? (fun x => x.id == u.id) = some u := by
  intro upd
  induction upd with
  | nil => intro u hmem _; cases hmem
  | cons v rest ih =>
    intro u hmem hnd
    rw [List.map_cons, List.nodup_cons] at hnd
    rcases List.mem_cons.1 hmem with h | h
    · subst h
      exact List.find?_cons_of_pos _ (by simp)
    · have hvne : v.id ≠ u.id := by
        intro hid
        exact hnd.1 (hid ▸ List.mem_map_of_mem LedgerEntry.id h)
      rw [List.find?_cons_of_neg _ (by simp [hvne])]
      exact ih h hnd.2

theorem replaceById_idem {upd : List LedgerEntry} (hnd : (upd.map LedgerEntry.id).Nodup)
    (e : LedgerEntry) : replaceById upd (replaceById upd e) = replaceById upd e := by
  cases hf : upd.find? (fun u => u.id == e.id) with
  | none =>
    have h1 : replaceById upd e = e := by unfold replaceById; rw [hf]
    rw [h1]
    exact h1
  | some u =>
    have h1 : replaceById upd e = u := by unfold replaceById; rw [hf]
    rw [h1]
    have h2 : upd.find? (fun x => x.id == u.id) = some u :=
      find?_id_self (List.mem_of_find?_eq_some hf) hnd
    unfold replaceById
    rw [h2]

theorem replaceById_strip (entries upd : List LedgerEntry)
    (hnd : (entries.map LedgerEntry.id).Nodup)
    (hsrc : ∀ u ∈ upd, ∃ p ∈ entries, stripRb u = stripRb p) :
    ∀ e ∈ entries, stripRb (replaceById upd e) = stripRb e := by
  intro e he
  unfold replaceById
  cases hf : upd.find? (fun u => u.id == e.id) with
  | none => rfl
  | some u =>
    obtain ⟨p, hp, hup⟩ := hsrc u (List.mem_of_find?_eq_some hf)
    have hupred := List.find?_some hf
    simp only [beq_iff_eq] at hupred
    have hpid : p.id = e.id := (stripRb_id hup).symm.trans hupred
    have hpe : p = e := List.inj_on_of_nodup_map hnd hp he hpid
    rw [hup, hpe]

theorem map_replaceById_self : ∀ (l : List LedgerEntry) (acc : Int),
    (l.map LedgerEntry.id).Nodup →
    l.map (replaceById (recalcSweep acc l).1) = (recalcSweep acc l).1 := by
  intro l
  induction l with
  | nil => intro acc _; rfl
  | cons e rest ih =>
    intro acc hnd
    rw [List.map_cons, List.nodup_cons] at hnd
    show replaceById (recalcSweep acc (e :: rest)).1 e ::
        rest.map (replaceById (recalcSweep acc (e :: rest)).1) = _
    have hhead : replaceById (recalcSweep acc (e :: rest)).1 e =
        { e with running_balance := acc + e.debit - e.credit } := by
      unfold replaceById
      rw [show (recalcSweep acc (e :: rest)).1 =
        { e with running_balance := acc + e.debit - e.credit } ::
          (recalcSweep (acc + e.debit - e.credit) rest).1 from rfl]
      rw [List.find?_cons_of_pos _ (by simp)]
    have htail : rest.map (replaceById (recalcSweep acc (e :: rest)).1) =
        rest.map (replaceById (recalcSweep (acc + e.debit - e.credit) rest).1) := by
      apply List.map_congr_left
      intro x hx
      have hxne : ({ e with running_balance := acc + e.debit - e.credit} :
          LedgerEntry).id ≠ x.id := by
        show e.id ≠ x.id
        intro hid
        exact hnd.1 (hid ▸ List.mem_map_of_mem LedgerEntry.id hx)
      exact replaceById_cons_of_ne hxne
    rw [hhead, htail, ih (acc + e.debit - e.credit) hnd.2]
    rfl

theorem filter_map_comm {α : Type} (p : α → Bool) (f : α → α) :
    ∀ l : List α, (∀ e ∈ l, p (f e) = p e) → (l.map f).filter p = (l.filter p).map f := by
  intro l
  induction l with
  | nil => intro _; rfl
  | cons a rest ih =>
    intro h
    simp only [List.map_cons, List.filter_cons]
    rw [h a (List.mem_cons_self a rest)]
    cases hp : p a with
    | true => simp [ih (fun e he => h e (List.mem_cons_of_mem a he))]
    | false => simp [ih (fun e he => h e (List.mem_cons_of_mem a he))]

theorem sumDC_strip (l m : List LedgerEntry) (h : l.map stripRb = m.map stripRb) :
    sumDC l = sumDC m := by
  have h1 : ∀ k : List LedgerEntry, sumDC k = ((k.map stripRb).map
      (fun e => e.debit - e.credit)).sum := by
    intro k
    unfold sumDC
    rw [List.map_map]
    rfl
  rw [h1 l, h1 m, h]

theorem sortedBy_of_strip : ∀ (l m : List LedgerEntry),
    l.map stripRb = m.map stripRb → SortedBy keyLe l → SortedBy keyLe m := by
  intro l
  induction l with
  | nil =>
    intro m h _
    cases m with
    | nil => exact List.Pairwise.nil
    | cons b mrest => cases h
  | cons a lrest ih =>
    intro m h hs
    cases m with
    | nil => cases h
    | cons b mrest =>
      simp only [List.map_cons, List.cons.injEq] at h
      rw [SortedBy, List.pairwise_cons] at hs ⊢
      refine ⟨?_, ih mrest h.2 hs.2⟩
      intro y hy
      have hy2 : stripRb y ∈ mrest.map stripRb := List.mem_map_of_mem _ hy
      rw [← h.2] at hy2
      obtain ⟨x, hx, hxy⟩ := List.mem_map.1 hy2
      have hk : keyLe b y = keyLe a x := keyLe_strip h.1.symm hxy.symm
      rw [hk]
      exact hs.1 x hx

/-- Two sorted permutations of entries with pairwise distinct `created_at`
coincide. -/
theorem sortedBy_perm_eq : ∀ (l m : List LedgerEntry), l.Perm m →
    SortedBy keyLe l → SortedBy keyLe m →
    (∀ a ∈ l, ∀ b ∈ l, a.created_at = b.created_at → a = b) → l = m := by
  intro l
  induction l with
  | nil =>
    intro m hp _ _ _
    exact (hp.symm.eq_nil).symm
  | cons a lrest ih =>
    intro m hp hsl hsm hdist
    cases m with
    | nil => cases hp.eq_nil
    | cons b mrest =>
      have hab : a = b := by
        by_cases heq : a = b
        · exact heq
        · have ham : a ∈ b :: mrest := hp.mem_iff.1 (List.mem_cons_self a lrest)
          have hbm : b ∈ a :: lrest := hp.mem_iff.2 (List.mem_cons_self b mrest)
          have ham2 : a ∈ mrest := by
            rcases List.mem_cons.1 ham with h | h
            · exact absurd h heq
            · exact h
          have hbm2 : b ∈ lrest := by
            rcases List.mem_cons.1 hbm with h | h
            · exact absurd h.symm heq
            · exact h
          rw [SortedBy, List.pairwise_cons] at hsl hsm
          have h1 : keyLe a b = true := hsl.1 b hbm2
          have h2 : keyLe b a = true := hsm.1 a ham2
          exact hdist a (List.mem_cons_self a lrest) b (List.mem_cons_of_mem a hbm2)
            (keyLe_antisymm_key h1 h2).2
      subst hab
      have hrest : lrest.Perm mrest := hp.cons_inv
      rw [SortedBy, List.pairwise_cons] at hsl hsm
      rw [ih mrest hrest hsl.2 hsm.2
        (fun x hx y hy hcr => hdist x (List.mem_cons_of_mem a hx) y
          (List.mem_cons_of_mem a hy) hcr)]

/-- After one recalculation writes back the recomputed party balances, the
party's entries of the new store are the rewritten originals, their sorted
order is exactly the recomputed list, and their ids stay distinct. -/
theorem recalc_resort (db : LedgerDB) (company : Nat) (pt : PartyType) (pid : Nat)
    (hids : (db.entries.map LedgerEntry.id).Nodup)
    (hcre : (db.entries.map LedgerEntry.created_at).Nodup)
    (U : List LedgerEntry)
    (hU : U = (recalcSweep 0 (sortByKey (partyEntries db company pt pid))).1) :
    sortByKey (partyEntries (⟨db.entries.map (replaceById U), db.nextId⟩ : LedgerDB)
      company pt pid) = U ∧
    partyEntries (⟨db.entries.map (replaceById U), db.nextId⟩ : LedgerDB) company pt pid =
      (partyEntries db company pt pid).map (replaceById U) ∧
    (U.map LedgerEntry.id).Nodup := by
  subst hU
  set P := partyEntries db company pt pid with hPdef
  set S := sortByKey P with hSdef
  set U := (recalcSweep 0 S).1 with hUdef
  have hperm : S.Perm P := sortOrd_perm keyLe P
  have hsub : P.Sublist db.entries := List.filter_sublist db.entries
  have hPids : (P.map LedgerEntry.id).Nodup := hids.sublist (hsub.map _)
  have hPcre : (P.map LedgerEntry.created_at).Nodup := hcre.sublist (hsub.map _)
  have hSids : (S.map LedgerEntry.id).Nodup := (hperm.map _).nodup_iff.mpr hPids
  have hUids : (U.map LedgerEntry.id).Nodup := by
    rw [hUdef, recalcSweep_ids]
    exact hSids
  have hstrip : U.map stripRb = S.map stripRb := recalcSweep_strip S 0
  have hrepl : S.map (replaceById U) = U := map_replaceById_self S 0 hSids
  have hsrc : ∀ u ∈ U, ∃ p ∈ db.entries, stripRb u = stripRb p := by
    intro u hu
    obtain ⟨p, hp, he⟩ := mem_recalcSweep_strip hu
    exact ⟨p, List.mem_of_mem_filter ((mem_sortOrd keyLe P p).1 hp), he⟩
  have hstrip2 : ∀ e ∈ db.entries, stripRb (replaceById U e) = stripRb e :=
    replaceById_strip db.entries U hids hsrc
  have hP2 : partyEntries (⟨db.entries.map (replaceById U), db.nextId⟩ : LedgerDB)
      company pt pid = P.map (replaceById U) := by
    show (db.entries.map (replaceById U)).filter (matchesParty company pt pid) = _
    rw [filter_map_comm (matchesParty company pt pid) (replaceById U) db.entries
      (fun e he => matchesParty_strip (hstrip2 e he))]
    rw [hPdef]
    rfl
  have hpermP2 : (P.map (replaceById U)).Perm U := by
    have h1 : (P.map (replaceById U)).Perm (S.map (replaceById U)) :=
      hperm.symm.map _
    rw [hrepl] at h1
    exact h1
  have hsortedS : SortedBy keyLe S :=
    sortOrd_sortedBy keyLe keyLe_total (fun a b c h1 h2 => keyLe_trans h1 h2) P
  have hsortedU : SortedBy keyLe U := sortedBy_of_strip S U hstrip.symm hsortedS
  have hpermS2 : (sortByKey (P.map (replaceById U))).Perm U :=
    (sortOrd_perm keyLe _).trans hpermP2
  have hsortedS2 : SortedBy keyLe (sortByKey (P.map (replaceById U))) :=
    sortOrd_sortedBy keyLe keyLe_total (fun a b c h1 h2 => keyLe_trans h1 h2) _
  have hcreS2 : ((sortByKey (P.map (replaceById U))).map LedgerEntry.created_at).Nodup := by
    have hmapeq : (P.map (replaceById U)).map LedgerEntry.created_at =
        P.map LedgerEntry.created_at := by
      rw [List.map_map]
      apply List.map_congr_left
      intro e he
      show (replaceById U e).created_at = e.created_at
      exact stripRb_created (hstrip2 e (List.mem_of_mem_filter he))
    have hp2 : ((sortByKey (P.map (replaceById U))).map LedgerEntry.created_at).Perm
        ((P.map (replaceById U)).map LedgerEntry.created_at) :=
      (sortOrd_perm keyLe _).map _
    rw [hmapeq] at hp2
    exact hp2.nodup_iff.mpr hPcre
  have hdist : ∀ a ∈ sortByKey (P.map (replaceById U)),
      ∀ b ∈ sortByKey (P.map (replaceById U)), a.created_at = b.created_at → a = b :=
    fun a ha b hb h => List.inj_on_of_nodup_map hcreS2 ha hb h
  refine ⟨?_, hP2, hUids⟩
  rw [hP2]
  exact sortedBy_perm_eq _ U hpermS2 hsortedS2 hsortedU hdist

/-- C8: with distinct primary keys and distinct `created_at` stamps (both
guaranteed by the store), `recalculate_party_balance` returns the sum over the
party's entries of debit minus credit, and a second call with no intervening
writes returns the same final balance, issues zero row writes, and leaves the
store exactly as the first call left it. -/
theorem recalculate_party_balance_idempotent (db : LedgerDB) (company : Nat)
    (pt : PartyType) (pid : Nat)
    (hids : (db.entries.map LedgerEntry.id).Nodup)
    (hcre : (db.entries.map LedgerEntry.created_at).Nodup) :
    (recalculate_party_balance db company pt pid).2.1 =
      sumDC (partyEntries db company pt pid) ∧
    recalculate_party_balance (recalculate_party_balance db company pt pid).1
        company pt pid =
      ((recalculate_party_balance db company pt pid).1,
        (recalculate_party_balance db company pt pid).2.1, 0) := by
  obtain ⟨hsort2, hP2, hUids⟩ := recalc_resort db company pt pid hids hcre
    ((recalcSweep 0 (sortByKey (partyEntries db company pt pid))).1) rfl
  constructor
  · have h1 : (recalculate_party_balance db company pt pid).2.1 =
        (recalcSweep 0 (sortByKey (partyEntries db company pt pid))).2.1 := rfl
    rw [h1, recalcSweep_final]
    have h2 : sumDC (sortByKey (partyEntries db company pt pid)) =
        sumDC (partyEntries db company pt pid) := by
      unfold sumDC
      exact List.Perm.sum_eq ((sortOrd_perm keyLe _).map _)
    rw [h2]
    ring
  · have hidem : (db.entries.map (replaceById
        ((recalcSweep 0 (sortByKey (partyEntries db company pt pid))).1))).map
          (replaceById ((recalcSweep 0 (sortByKey (partyEntries db company pt pid))).1)) =
        db.entries.map (replaceById
          ((recalcSweep 0 (sortByKey (partyEntries db company pt pid))).1)) := by
      rw [List.map_map]
      apply List.map_congr_left
      intro e _
      exact replaceById_idem hUids e
    have hu2 : recalculate_party_balance (recalculate_party_balance db company pt
        pid).1 company pt pid =
        (⟨(recalculate_party_balance db company pt pid).1.entries.map (replaceById
            ((recalcSweep 0 (sortByKey (partyEntries (recalculate_party_balance db
              company pt pid).1 company pt pid))).1)),
          (recalculate_party_balance db company pt pid).1.nextId⟩,
          (recalcSweep 0 (sortByKey (partyEntries (recalculate_party_balance db
            company pt pid).1 company pt pid))).2.1,
          (recalcSweep 0 (sortByKey (partyEntries (recalculate_party_balance db
            company pt pid).1 company pt pid))).2.2) := rfl
    have hdb1 : (recalculate_party_balance db company pt pid).1 =
        ⟨db.entries.map (replaceById ((recalcSweep 0 (sortByKey (partyEntries db
          company pt pid))).1)), db.nextId⟩ := rfl
    rw [hu2, hdb1, hsort2, recalcSweep_fixed (sortByKey (partyEntries db company pt
      pid)) 0]
    have hfin : (recalculate_party_balance db company pt pid).2.1 =
        (recalcSweep 0 (sortByKey (partyEntries db company pt pid))).2.1 := rfl
    rw [hfin]
    simp [hidem]

/-- A store with deliberately wrong stored balances, used as the witness
input for recalculation. -/
def corruptDB : LedgerDB :=
  ⟨[⟨0, 1, .customer, 1, .adjustment, 100, 0, 77, none, "a", 10, 0⟩,
    ⟨1, 1, .customer, 1, .adjustment, 0, 60, -5, none, "b", 12, 1⟩,
    ⟨2, 1, .supplier, 3, .adjustment, 0, 9, -9, none, "c", 4, 2⟩], 3⟩

/-- Witness for C8: on `corruptDB`, recalculating customer 1 yields the final
balance `100 - 60 = 40 = Σ (debit - credit)`, and the second call returns the
same balance, writes nothing, and leaves the store untouched. -/
theorem recalculate_party_balance_idempotent_witness :
    (recalculate_party_balance corruptDB 1 PartyType.customer 1).2.1 =
      sumDC (partyEntries corruptDB 1 PartyType.customer 1) ∧
    recalculate_party_balance
        (recalculate_party_balance corruptDB 1 PartyType.customer 1).1
        1 PartyType.customer 1 =
      ((recalculate_party_balance corruptDB 1 PartyType.customer 1).1,
        (recalculate_party_balance corruptDB 1 PartyType.customer 1).2.1, 0) :=
  recalculate_party_balance_idempotent corruptDB 1 PartyType.customer 1
    (by decide) (by decide)

end ERP
